import Mathlib

/-!
Verification of the record-reconciliation engine of `recon_app.py`.

The Python source works on pandas rows whose relevant cell values are strings
(possibly missing, i.e. NaN) and floating point costs.  The shallow embedding
below models a Python string as a `List Char` (`PyStr`), a possibly-missing
value as an `Option`, and numeric costs / similarity scores as rationals.
Python's ASCII-level `str.lower`/`str.upper` are modelled by `Char.toLower` /
`Char.toUpper` (which are exactly the ASCII case maps), `str.strip` by
removing whitespace from both ends, and the rapidfuzz similarity scores
(`token_set_ratio`, `partial_ratio`, `ratio`), which are external library
calls, are abstracted as an arbitrary `Scores` record of rational-valued
functions; every theorem about the matching cascade is universally
quantified over them.
-/

abbrev PyStr := List Char

/-- Whitespace test used by the model of Python `str.strip`. -/
def wsB (c : Char) : Bool := c.isWhitespace

/-- Model of Python `str.strip()`: remove whitespace from both ends. -/
def pyStrip (l : PyStr) : PyStr := (l.dropWhile wsB).rdropWhile wsB

/-- Model of Python `str.lower()` (ASCII case map, as in `Char.toLower`). -/
def pyLower (l : PyStr) : PyStr := l.map Char.toLower

/-- Model of Python `str.upper()` (ASCII case map, as in `Char.toUpper`). -/
def pyUpper (l : PyStr) : PyStr := l.map Char.toUpper

/-- Number of words of a string, i.e. `len(s.split())` in Python: the number
of maximal whitespace-free runs.  The boolean argument records whether the
scan is currently inside a word. -/
def wordCountAux : Bool → PyStr → Nat
  | _, [] => 0
  | inw, c :: t =>
    if wsB c then wordCountAux false t
    else (if inw then 0 else 1) + wordCountAux true t

/-- Model of Python `len(s.split())`. -/
def wordCount (l : PyStr) : Nat := wordCountAux false l

/-- Model of Python `shorter in longer` (contiguous substring test). -/
def pySub (shorter : PyStr) : PyStr → Bool
  | [] => shorter.isPrefixOf []
  | c :: t => shorter.isPrefixOf (c :: t) || pySub shorter t

/-- The suffix alias list of `normalize_tp_name` (source lines 26-34),
in its declared order. -/
def tp_suffixes : List PyStr :=
  [" limited".toList, " ltd".toList, " ltd.".toList, " llp".toList,
   " tree services".toList, " tree service".toList, " tree surgery".toList,
   " tree surgeons".toList,
   " tree care".toList, " tree solutions".toList, " trees".toList,
   " arboricultural".toList, " arboriculture".toList, " arborists".toList,
   " services".toList, " consultancy".toList, " contractors".toList,
   " (east midlands)".toList, " (midlands)".toList, " (south)".toList,
   " (north)".toList,
   " uk".toList, " group".toList]

/-- The prefix alias list of `normalize_tp_name` (source line 41). -/
def tp_prefixes : List PyStr := ["dc ".toList, "tcr ".toList]

/-- One step of the suffix loop of `normalize_tp_name`:
`if name.endswith(suffix): name = name[:-len(suffix)].strip()`. -/
def stripOneSuffix (name s : PyStr) : PyStr :=
  if s.isSuffixOf name then pyStrip (name.take (name.length - s.length)) else name

/-- One step of the prefix loop of `normalize_tp_name`:
`if name.startswith(prefix): name = name[len(prefix):].strip()`. -/
def stripOnePre (name p : PyStr) : PyStr :=
  if p.isPrefixOf name then pyStrip (name.drop p.length) else name

/-- Model of `normalize_tp_name` (source lines 18-46): on a missing value
return the empty string, otherwise lower-case and strip, run the suffix
loop over `tp_suffixes` in order, run the prefix loop over `tp_prefixes`
in order, and strip once more. -/
def normalize_tp_name (name : Option PyStr) : PyStr :=
  match name with
  | none => []
  | some s =>
    let n0 := pyStrip (pyLower s)
    let n1 := tp_suffixes.foldl stripOneSuffix n0
    let n2 := tp_prefixes.foldl stripOnePre n1
    pyStrip n2

/-- The three rapidfuzz similarity scores used by `fuzzy_match`, abstracted
as arbitrary rational-valued functions. -/
structure Scores where
  tokenSetRatio : PyStr → PyStr → ℚ
  partialRatio : PyStr → PyStr → ℚ
  plainRatio : PyStr → PyStr → ℚ

/-- The normalized-substring stage of `fuzzy_match` (source lines 72-86):
guarded by both normalized names being non-empty, the shorter having at
least 2 words and at least 70% of the length of the longer; then test
substring containment. -/
def substringStage (n1n n2n : PyStr) : Bool :=
  if n1n ≠ [] ∧ n2n ≠ [] then
    let shorter := if n1n.length ≤ n2n.length then n1n else n2n
    let longer := if n1n.length ≤ n2n.length then n2n else n1n
    let ratio : ℚ :=
      if 0 < longer.length then (shorter.length : ℚ) / (longer.length : ℚ) else 0
    if 2 ≤ wordCount shorter ∧ (7/10 : ℚ) ≤ ratio then pySub shorter longer
    else false
  else false

/-- Model of `fuzzy_match` (source lines 48-105): the layered name-matching
cascade.  `threshold` is the final plain-ratio threshold (default 80 at
every call site in the source). -/
def fuzzy_match (S : Scores) (threshold : ℚ) (name1 name2 : Option PyStr) : Bool :=
  match name1, name2 with
  | some s1, some s2 =>
    let n1 := pyStrip (pyLower s1)
    let n2 := pyStrip (pyLower s2)
    if n1 = [] ∨ n2 = [] then false
    else if n1 = n2 then true
    else
      let n1n := normalize_tp_name (some s1)
      let n2n := normalize_tp_name (some s2)
      if n1n = n2n ∧ n1n ≠ [] then true
      else if substringStage n1n n2n then true
      else if (90 : ℚ) ≤ S.tokenSetRatio n1 n2 then true
      else if (95 : ℚ) ≤ S.partialRatio n1 n2 then true
      else if threshold ≤ S.plainRatio n1 n2 then true
      else false
  | _, _ => false

/-- Model of `cost_matches` (source lines 107-121).  `none` stands for a
missing or unparseable cost (Python `NaN` or a failing `float(...)`). -/
def cost_matches (cost1 cost2 : Option ℚ) (tolerance : ℚ) : Bool :=
  match cost1, cost2 with
  | some c1, some c2 =>
    if c1 = 0 ∧ c2 = 0 then true
    else if c1 = 0 ∨ c2 = 0 then false
    else decide (|c1 - c2| / max c1 c2 ≤ tolerance)
  | _, _ => false

/-- Model of `extract_tm_number` (source lines 123-137): strip; the empty
string and the literal string `nan` (case-insensitively) yield `None`;
otherwise upper-case and prepend `TM` unless it is already a prefix. -/
def extract_tm_number (value : Option PyStr) : Option PyStr :=
  match value with
  | none => none
  | some s =>
    let val := pyStrip s
    if val = [] ∨ pyLower val = ("nan".toList) then none
    else
      let valU := pyUpper val
      if ("TM".toList).isPrefixOf valU then some valU
      else some (("TM".toList) ++ valU)

/-- Model of `is_valid_tm_number` (source lines 139-145). -/
def is_valid_tm_number (tm_no : Option PyStr) : Bool :=
  match tm_no with
  | none => false
  | some s =>
    if pyStrip s = [] ∨ pyUpper (pyStrip s) = ("TM".toList) then false else true

/-- The composed job-key pipeline of the source: `extract_tm_number`
followed by the `is_valid_tm_number` gate that removes the row from the
join population (source lines 267-279, 356-362, 389-395). -/
def normalize_job_key (value : Option PyStr) : Option PyStr :=
  let t := extract_tm_number value
  if is_valid_tm_number t then t else none

/-- A row of one of the joined tables after field normalization: a (valid)
job key `tmNo` (column `_TM_NO`), a raw contractor name `tpName`
(column `_TP_NAME`, possibly missing), and a cost (column `_COST`, already
coerced with `fillna(0)` so never missing). -/
structure Row where
  tmNo : PyStr
  tpName : Option PyStr
  cost : ℚ
deriving DecidableEq

/-- The classification categories: the seven lists of the `results`
dictionary of the source (lines 410-418). -/
inductive RowResult
  | matched
  | missing_in_tm
  | missing_in_xero
  | tp_mismatch_tm
  | tp_mismatch_xero
  | no_quote_in_tm
  | cost_mismatch
deriving DecidableEq

/-- The exclusion predicate of the source: `~df['_TP_NAME'].isin(excluded)`.
A missing name is never a member of the exclusion list, so it is kept. -/
def keepRow (excluded : List PyStr) (r : Row) : Bool :=
  match r.tpName with
  | none => true
  | some s => decide (s ∉ excluded)

/-- Classification of one tracker row in `Tracker vs TM` mode (source
lines 425-483): collect the TM rows with the same job key; none means
`missing_in_tm`; otherwise take the first whose contractor name
fuzzy-matches; none means `tp_mismatch_tm`; otherwise a zero cost means
`no_quote_in_tm` and a nonzero cost means `matched`. -/
def classifyTrackerVsTM (S : Scores) (tm : List Row) (r : Row) : RowResult :=
  let ms := tm.filter (fun x => decide (x.tmNo = r.tmNo))
  if ms = [] then .missing_in_tm
  else
    match ms.find? (fun x => fuzzy_match S 80 r.tpName x.tpName) with
    | none => .tp_mismatch_tm
    | some m => if m.cost = 0 then .no_quote_in_tm else .matched

/-- Classification of one (non-skipped) TM row in `TM vs Xero` mode
(source lines 496-555): collect the Xero rows with the same job key; none
means `missing_in_xero`; otherwise take the first whose contractor name
fuzzy-matches; none means `tp_mismatch_xero`; otherwise compare costs with
`cost_matches` (tolerance 0.01). -/
def classifyTMvsXero (S : Scores) (xero : List Row) (r : Row) : RowResult :=
  let ms := xero.filter (fun x => decide (x.tmNo = r.tmNo))
  if ms = [] then .missing_in_xero
  else
    match ms.find? (fun x => fuzzy_match S 80 r.tpName x.tpName) with
    | none => .tp_mismatch_xero
    | some m =>
      if cost_matches (some r.cost) (some m.cost) (1/100) then .matched
      else .cost_mismatch

/-- Classification of one tracker row in `3-way Full` mode (source lines
565-666): Tracker→TM first (missing / name-mismatch / zero cost are
terminal), then TM→Xero with the matched TM row's name and cost. -/
def classifyThreeWay (S : Scores) (tm xero : List Row) (r : Row) : RowResult :=
  let ms := tm.filter (fun x => decide (x.tmNo = r.tmNo))
  if ms = [] then .missing_in_tm
  else
    match ms.find? (fun x => fuzzy_match S 80 r.tpName x.tpName) with
    | none => .tp_mismatch_tm
    | some m =>
      if m.cost = 0 then .no_quote_in_tm
      else
        let xs := xero.filter (fun x => decide (x.tmNo = r.tmNo))
        if xs = [] then .missing_in_xero
        else
          match xs.find? (fun x => fuzzy_match S 80 m.tpName x.tpName) with
          | none => .tp_mismatch_xero
          | some xr =>
            if cost_matches (some m.cost) (some xr.cost) (1/100) then .matched
            else .cost_mismatch

/-- The deduplication key of `TM vs Xero` mode (source line 503):
`(tm_no, str(tm_tp).lower().strip())`, with the empty string for a
missing name. -/
def comboKey (r : Row) : PyStr × PyStr :=
  (r.tmNo, match r.tpName with
           | none => []
           | some s => pyStrip (pyLower s))

/-- The `TM vs Xero` iteration (source lines 494-555): walk the filtered
TM rows in order, skip a row whose `comboKey` was already processed, and
otherwise record its key and classification. -/
def runTMvsXeroAux (S : Scores) (xero : List Row)
    (seen : List (PyStr × PyStr)) : List Row → List (PyStr × RowResult)
  | [] => []
  | r :: rest =>
    if comboKey r ∈ seen then runTMvsXeroAux S xero seen rest
    else (r.tmNo, classifyTMvsXero S xero r) ::
      runTMvsXeroAux S xero (comboKey r :: seen) rest

/-- First-occurrence deduplication by `comboKey`, starting from a set of
already-seen keys; used to state structural facts about the `TM vs Xero`
iteration. -/
def dedupFirstAux (seen : List (PyStr × PyStr)) : List Row → List Row
  | [] => []
  | r :: rest =>
    if comboKey r ∈ seen then dedupFirstAux seen rest
    else r :: dedupFirstAux (comboKey r :: seen) rest

/-- Full `Tracker vs TM` run: exclusion-filter the tracker rows (source
lines 331-334), then classify each remaining row, recording its job key. -/
def runTrackerVsTM (S : Scores) (excluded : List PyStr)
    (tracker tm : List Row) : List (PyStr × RowResult) :=
  (tracker.filter (keepRow excluded)).map
    (fun r => (r.tmNo, classifyTrackerVsTM S tm r))

/-- Full `TM vs Xero` run: exclusion-filter the TM rows (source line 491),
then iterate with deduplication. -/
def runTMvsXero (S : Scores) (excluded : List PyStr)
    (tm xero : List Row) : List (PyStr × RowResult) :=
  runTMvsXeroAux S xero [] (tm.filter (keepRow excluded))

/-- Full `3-way Full` run: exclusion-filter the tracker rows, then
classify each remaining row against the (unfiltered) TM and Xero tables. -/
def runThreeWay (S : Scores) (excluded : List PyStr)
    (tracker tm xero : List Row) : List (PyStr × RowResult) :=
  (tracker.filter (keepRow excluded)).map
    (fun r => (r.tmNo, classifyThreeWay S tm xero r))

/-- Number of classifications in a run output that fall in category `c`. -/
def countCat (c : RowResult) (rs : List (PyStr × RowResult)) : Nat :=
  (rs.filter (fun x => decide (x.2 = c))).length

/-- The sum of all seven category counts, as in the summary calculation of
the source (lines 668-679): `matched` plus every mismatch category. -/
def totalCount (rs : List (PyStr × RowResult)) : Nat :=
  countCat .matched rs + countCat .missing_in_tm rs + countCat .missing_in_xero rs +
  countCat .tp_mismatch_tm rs + countCat .tp_mismatch_xero rs +
  countCat .no_quote_in_tm rs + countCat .cost_mismatch rs

/-- A string is lower-invariant when every character is fixed by the ASCII
lower-case map; the output of `normalize_tp_name` always is. -/
def IsLowerInv (l : PyStr) : Prop := ∀ c ∈ l, Char.toLower c = c

/-! Spec-side definitions, written from the wording of the specification
and of the claims, to be compared with the source-side definitions. -/

/-- Spec 4.5: scan the candidates in their original order and return the
first whose contractor name matches. -/
def firstNameMatch (S : Scores) (tp : Option PyStr) : List Row → Option Row
  | [] => none
  | c :: rest =>
    if fuzzy_match S 80 tp c.tpName then some c else firstNameMatch S tp rest

/-- The two-source Primary→Secondary classification exactly as the claim
words it: no candidate sharing the job key means `missing_in_tm`;
otherwise the candidates are scanned in their original order for the first
name match, and only then is the selected candidate's cost checked (zero
means `no_quote_in_tm`, nonzero means `matched`); if no candidate's name
matches the result is `tp_mismatch_tm`. -/
def trackerVsTMSpec (S : Scores) (tm : List Row) (r : Row) : RowResult :=
  let candidates := tm.filter (fun x => decide (x.tmNo = r.tmNo))
  if candidates = [] then .missing_in_tm
  else
    match firstNameMatch S r.tpName candidates with
    | some c => if c.cost = 0 then .no_quote_in_tm else .matched
    | none => .tp_mismatch_tm

/-- The substring stage of the Name Matcher as the claim words it: the
shorter normalized name has at least 2 tokens, its length is at least 70%
of the longer's, and it is a substring of the longer. -/
def substringStageSpec (n1n n2n : PyStr) : Bool :=
  let shorter := if n1n.length ≤ n2n.length then n1n else n2n
  let longer := if n1n.length ≤ n2n.length then n2n else n1n
  decide (2 ≤ wordCount shorter) &&
    decide ((7/10 : ℚ) * (longer.length : ℚ) ≤ (shorter.length : ℚ)) &&
    pySub shorter longer

/-- The Name Matcher cascade exactly as the claim words it, stage by
stage, first success returning true.  Stages 5-7 are computed on the
case/whitespace-folded original names (the claim's "original strings", as
opposed to the suffix-stripped normalized forms). -/
def nameMatcherSpec (S : Scores) (threshold : ℚ) (name1 name2 : Option PyStr) : Bool :=
  match name1, name2 with
  | none, _ => false
  | _, none => false
  | some s1, some s2 =>
    let f1 := pyStrip (pyLower s1)
    let f2 := pyStrip (pyLower s2)
    if f1 = [] ∨ f2 = [] then false
    else if f1 = f2 then true
    else if normalize_tp_name (some s1) = normalize_tp_name (some s2) ∧
        normalize_tp_name (some s1) ≠ [] then true
    else if substringStageSpec (normalize_tp_name (some s1))
        (normalize_tp_name (some s2)) then true
    else if (90 : ℚ) ≤ S.tokenSetRatio f1 f2 then true
    else if (95 : ℚ) ≤ S.partialRatio f1 f2 then true
    else if threshold ≤ S.plainRatio f1 f2 then true
    else false

/-- The claim's job-key normalization exactly as written (trim and
upper-case; empty or bare `TM` is invalid; an existing `TM` prefix is kept,
otherwise `TM` is prepended) — with no special case for the literal string
`nan`. -/
def jobKeyClaimC5 (value : Option PyStr) : Option PyStr :=
  match value with
  | none => none
  | some s =>
    let u := pyUpper (pyStrip s)
    if u = [] ∨ u = ("TM".toList) then none
    else if ("TM".toList).isPrefixOf u then some u
    else some (("TM".toList) ++ u)

/-- The amended claim's job-key normalization: trim; an empty result or
the literal string `nan` (case-insensitively) is invalid; otherwise
upper-case; the bare tag `TM` is invalid; a result already starting with
`TM` is returned as-is; anything else gets `TM` prepended. -/
def jobKeySpecC5 (value : Option PyStr) : Option PyStr :=
  match value with
  | none => none
  | some s =>
    let t := pyStrip s
    if t = [] then none
    else if pyLower t = ("nan".toList) then none
    else
      let u := pyUpper t
      if u = ("TM".toList) then none
      else if ("TM".toList).isPrefixOf u then some u
      else some (("TM".toList) ++ u)

/-- The suffix pass as the amended claim words it: each suffix alias is
checked once, in the declared order, and removed (with a trim) if the name
current at that point ends with it. -/
def stripSuffixPassSpec : List PyStr → PyStr → PyStr
  | [], n => n
  | s :: rest, n =>
    stripSuffixPassSpec rest
      (if s.isSuffixOf n then pyStrip (n.take (n.length - s.length)) else n)

/-- The prefix pass as the amended claim words it. -/
def stripPrePassSpec : List PyStr → PyStr → PyStr
  | [], n => n
  | p :: rest, n =>
    stripPrePassSpec rest
      (if p.isPrefixOf n then pyStrip (n.drop p.length) else n)

/-- The suffix pass as the original claim words it: only the first
matching suffix alias in the declared order is removed, and no further
suffix is removed. -/
def stripFirstSuffixOnly : List PyStr → PyStr → PyStr
  | [], n => n
  | s :: rest, n =>
    if s.isSuffixOf n then pyStrip (n.take (n.length - s.length))
    else stripFirstSuffixOnly rest n

/-- The prefix pass as the original claim words it: at most the first
matching prefix alias is removed. -/
def stripFirstPreOnly : List PyStr → PyStr → PyStr
  | [], n => n
  | p :: rest, n =>
    if p.isPrefixOf n then pyStrip (n.drop p.length)
    else stripFirstPreOnly rest n

/-- Name normalization as the original C8 claim words it: strip at most
one suffix (the first matching alias) and at most one prefix. -/
def normalizeClaimC8 (name : Option PyStr) : PyStr :=
  match name with
  | none => []
  | some s =>
    pyStrip (stripFirstPreOnly tp_prefixes
      (stripFirstSuffixOnly tp_suffixes (pyStrip (pyLower s))))

/-- A fixed trivial score assignment (all similarity scores zero), used to
instantiate the score-function parameters in concrete examples. -/
def S0 : Scores := ⟨fun _ _ => 0, fun _ _ => 0, fun _ _ => 0⟩

/-! Helper lemmas about the character-level and string-level models. -/

lemma char_toNat_ofNat {n : Nat} (h : Nat.isValidChar n) : (Char.ofNat n).toNat = n := by
  rw [Char.ofNat, dif_pos h]
  rfl

lemma char_eq_of_toNat_eq {a b : Char} (h : a.toNat = b.toNat) : a = b := by
  rw [← Char.ofNat_toNat a, ← Char.ofNat_toNat b, h]

lemma toNat_toLower (c : Char) :
    (Char.toLower c).toNat =
      if c.toNat ≥ 65 ∧ c.toNat ≤ 90 then c.toNat + 32 else c.toNat := by
  simp only [Char.toLower]
  by_cases h : c.toNat ≥ 65 ∧ c.toNat ≤ 90
  · rw [if_pos h, if_pos h, char_toNat_ofNat (Or.inl (by omega))]
  · rw [if_neg h, if_neg h]

lemma toNat_toUpper (c : Char) :
    (Char.toUpper c).toNat =
      if c.toNat ≥ 97 ∧ c.toNat ≤ 122 then c.toNat - 32 else c.toNat := by
  simp only [Char.toUpper]
  by_cases h : c.toNat ≥ 97 ∧ c.toNat ≤ 122
  · rw [if_pos h, if_pos h, char_toNat_ofNat (Or.inl (by omega))]
  · rw [if_neg h, if_neg h]

lemma toLower_toLower (c : Char) : (Char.toLower c).toLower = Char.toLower c := by
  apply char_eq_of_toNat_eq
  rw [toNat_toLower (Char.toLower c), toNat_toLower c]
  split_ifs <;> omega

lemma toUpper_toUpper (c : Char) : (Char.toUpper c).toUpper = Char.toUpper c := by
  apply char_eq_of_toNat_eq
  rw [toNat_toUpper (Char.toUpper c), toNat_toUpper c]
  split_ifs <;> omega

lemma wsB_eq_false_of_toNat {c : Char} (h32 : c.toNat ≠ 32) (h9 : c.toNat ≠ 9)
    (h13 : c.toNat ≠ 13) (h10 : c.toNat ≠ 10) : wsB c = false := by
  simp only [wsB, Char.isWhitespace, Bool.or_eq_false_iff, decide_eq_false_iff_not]
  refine ⟨⟨⟨fun he => h32 ?_, fun he => h9 ?_⟩, fun he => h13 ?_⟩, fun he => h10 ?_⟩ <;>
    rw [he] <;> rfl

lemma wsB_toUpper (c : Char) : wsB (Char.toUpper c) = wsB c := by
  by_cases h : c.toNat ≥ 97 ∧ c.toNat ≤ 122
  · have ht : (Char.toUpper c).toNat = c.toNat - 32 := by rw [toNat_toUpper, if_pos h]
    rw [wsB_eq_false_of_toNat (c := c) (by omega) (by omega) (by omega) (by omega),
      wsB_eq_false_of_toNat (c := Char.toUpper c) (by omega) (by omega) (by omega) (by omega)]
  · have : Char.toUpper c = c := char_eq_of_toNat_eq (by rw [toNat_toUpper, if_neg h])
    rw [this]

lemma rdropWhile_pyStrip (l : PyStr) : (pyStrip l).rdropWhile wsB = pyStrip l := by
  unfold pyStrip
  exact List.rdropWhile_idempotent wsB (l.dropWhile wsB)

lemma dropWhile_pyStrip (l : PyStr) : (pyStrip l).dropWhile wsB = pyStrip l := by
  rcases hB : pyStrip l with _ | ⟨c, t⟩
  · rfl
  · have hpre : pyStrip l <+: l.dropWhile wsB := List.rdropWhile_prefix wsB _
    rw [hB] at hpre
    have hlen : 0 < (l.dropWhile wsB).length := by
      rcases hpre with ⟨r, hr⟩
      rw [← hr]
      simp
    have hc : (l.dropWhile wsB)[0] = c := by
      have := hpre.getElem (n := 0) (by simp)
      simpa using this.symm
    have hnot : ¬ wsB ((l.dropWhile wsB).get ⟨0, hlen⟩) :=
      List.dropWhile_get_zero_not wsB l hlen
    rw [List.get_eq_getElem, hc] at hnot
    rw [List.dropWhile_cons, if_neg hnot]

lemma pyStrip_eq_self_of {l : PyStr} (h1 : l.dropWhile wsB = l)
    (h2 : l.rdropWhile wsB = l) : pyStrip l = l := by
  unfold pyStrip
  rw [h1, h2]

lemma pyStrip_idem (l : PyStr) : pyStrip (pyStrip l) = pyStrip l :=
  pyStrip_eq_self_of (dropWhile_pyStrip l) (rdropWhile_pyStrip l)

lemma pyStrip_subset (l : PyStr) : pyStrip l ⊆ l := by
  intro a ha
  have h1 : pyStrip l ⊆ l.dropWhile wsB := (List.rdropWhile_prefix wsB _).subset
  exact (List.dropWhile_suffix wsB).subset (h1 ha)

lemma isLowerInv_of_subset {l m : PyStr} (hsub : m ⊆ l) (h : IsLowerInv l) :
    IsLowerInv m :=
  fun c hc => h c (hsub hc)

lemma isLowerInv_pyLower (s : PyStr) : IsLowerInv (pyLower s) := by
  intro c hc
  rw [pyLower, List.mem_map] at hc
  rcases hc with ⟨d, _, rfl⟩
  exact toLower_toLower d

lemma pyLower_eq_self {l : PyStr} (h : IsLowerInv l) : pyLower l = l := by
  have h2 : l.map Char.toLower = l.map id := List.map_congr_left h
  rw [pyLower, h2, List.map_id]

lemma isLowerInv_stripOneSuffix {n : PyStr} (h : IsLowerInv n) (s : PyStr) :
    IsLowerInv (stripOneSuffix n s) := by
  unfold stripOneSuffix
  split
  · exact isLowerInv_of_subset
      (fun a ha => List.take_subset _ _ (pyStrip_subset _ ha)) h
  · exact h

lemma isLowerInv_stripOnePre {n : PyStr} (h : IsLowerInv n) (p : PyStr) :
    IsLowerInv (stripOnePre n p) := by
  unfold stripOnePre
  split
  · exact isLowerInv_of_subset
      (fun a ha => List.drop_subset _ _ (pyStrip_subset _ ha)) h
  · exact h

lemma isLowerInv_foldl_suffixes (L : List PyStr) {n : PyStr} (h : IsLowerInv n) :
    IsLowerInv (L.foldl stripOneSuffix n) := by
  induction L generalizing n with
  | nil => exact h
  | cons s rest ih => exact ih (isLowerInv_stripOneSuffix h s)

lemma isLowerInv_foldl_prefixes (L : List PyStr) {n : PyStr} (h : IsLowerInv n) :
    IsLowerInv (L.foldl stripOnePre n) := by
  induction L generalizing n with
  | nil => exact h
  | cons p rest ih => exact ih (isLowerInv_stripOnePre h p)

lemma isLowerInv_normalize (x : Option PyStr) : IsLowerInv (normalize_tp_name x) := by
  cases x with
  | none => intro c hc; cases hc
  | some s =>
    simp only [normalize_tp_name]
    exact isLowerInv_of_subset (pyStrip_subset _)
      (isLowerInv_foldl_prefixes _ (isLowerInv_foldl_suffixes _
        (isLowerInv_of_subset (pyStrip_subset _) (isLowerInv_pyLower s))))

lemma pyStrip_normalize (x : Option PyStr) :
    pyStrip (normalize_tp_name x) = normalize_tp_name x := by
  cases x with
  | none => rfl
  | some s =>
    simp only [normalize_tp_name]
    exact pyStrip_idem _

lemma foldl_stripOneSuffix_eq_self {L : List PyStr} {n : PyStr}
    (h : ∀ s ∈ L, s.isSuffixOf n = false) : L.foldl stripOneSuffix n = n := by
  induction L with
  | nil => rfl
  | cons s rest ih =>
    have hs : stripOneSuffix n s = n := by
      unfold stripOneSuffix
      rw [h s (List.mem_cons_self s rest)]
      simp
    rw [List.foldl_cons, hs]
    exact ih (fun t ht => h t (List.mem_cons_of_mem s ht))

lemma foldl_stripOnePre_eq_self {L : List PyStr} {n : PyStr}
    (h : ∀ p ∈ L, p.isPrefixOf n = false) : L.foldl stripOnePre n = n := by
  induction L with
  | nil => rfl
  | cons p rest ih =>
    have hp : stripOnePre n p = n := by
      unfold stripOnePre
      rw [h p (List.mem_cons_self p rest)]
      simp
    rw [List.foldl_cons, hp]
    exact ih (fun t ht => h t (List.mem_cons_of_mem p ht))

/-! Upper-case / strip interaction lemmas, used for the job-key claims. -/

lemma dropWhile_pyUpper (l : PyStr) :
    (pyUpper l).dropWhile wsB = pyUpper (l.dropWhile wsB) := by
  have hcomp : wsB ∘ Char.toUpper = wsB := funext wsB_toUpper
  rw [pyUpper, List.dropWhile_map, hcomp, pyUpper]

lemma rdropWhile_pyUpper (l : PyStr) :
    (pyUpper l).rdropWhile wsB = pyUpper (l.rdropWhile wsB) := by
  have hcomp : wsB ∘ Char.toUpper = wsB := funext wsB_toUpper
  rw [List.rdropWhile, List.rdropWhile, pyUpper, pyUpper,
    ← List.map_reverse, List.dropWhile_map, hcomp, List.map_reverse]

lemma pyStrip_pyUpper (l : PyStr) : pyStrip (pyUpper l) = pyUpper (pyStrip l) := by
  rw [pyStrip, pyStrip, dropWhile_pyUpper, rdropWhile_pyUpper]

lemma pyUpper_idem (l : PyStr) : pyUpper (pyUpper l) = pyUpper l := by
  rw [pyUpper, pyUpper, List.map_map]
  exact List.map_congr_left (fun c _ => toUpper_toUpper c)

lemma rdropWhile_of_pyStrip_eq_self {u : PyStr} (hu : pyStrip u = u) :
    u.rdropWhile wsB = u := by
  conv_lhs => rw [← hu]
  rw [rdropWhile_pyStrip, hu]

lemma dropWhile_of_pyStrip_eq_self {u : PyStr} (hu : pyStrip u = u) :
    u.dropWhile wsB = u := by
  conv_lhs => rw [← hu]
  rw [dropWhile_pyStrip, hu]

lemma pyStrip_TM_append {u : PyStr} (hu : pyStrip u = u) (hne : u ≠ []) :
    pyStrip (("TM".toList) ++ u) = ("TM".toList) ++ u := by
  have hdrop : (("TM".toList) ++ u).dropWhile wsB = ("TM".toList) ++ u := by
    show List.dropWhile wsB (Char.ofNat 84 :: Char.ofNat 77 :: u) = _
    rw [List.dropWhile_cons, if_neg (by decide)]
    rfl
  have hlast : ∀ hl : (("TM".toList) ++ u) ≠ [],
      ¬ wsB ((("TM".toList) ++ u).getLast hl) = true := by
    intro hl
    rw [List.getLast_append' ("TM".toList) u hne]
    exact List.rdropWhile_eq_self_iff.mp (rdropWhile_of_pyStrip_eq_self hu) hne
  have hrdrop : (("TM".toList) ++ u).rdropWhile wsB = ("TM".toList) ++ u :=
    List.rdropWhile_eq_self_iff.mpr hlast
  exact pyStrip_eq_self_of hdrop hrdrop

lemma find?_eq_firstNameMatch (S : Scores) (tp : Option PyStr) :
    ∀ l : List Row,
      l.find? (fun x => fuzzy_match S 80 tp x.tpName) = firstNameMatch S tp l := by
  intro l
  induction l with
  | nil => rfl
  | cons c rest ih =>
    rw [List.find?_cons, firstNameMatch]
    rcases h : fuzzy_match S 80 tp c.tpName with _ | _
    · rw [if_neg (by simp [h])]
      exact ih
    · rw [if_pos (by simp)]

lemma runTMvsXeroAux_eq_map (S : Scores) (xero : List Row) :
    ∀ (rows : List Row) (seen : List (PyStr × PyStr)),
      runTMvsXeroAux S xero seen rows =
        (dedupFirstAux seen rows).map (fun r => (r.tmNo, classifyTMvsXero S xero r)) := by
  intro rows
  induction rows with
  | nil => intro seen; rfl
  | cons r rest ih =>
    intro seen
    rw [runTMvsXeroAux, dedupFirstAux]
    by_cases h : comboKey r ∈ seen
    · rw [if_pos h, if_pos h, ih]
    · rw [if_neg h, if_neg h, List.map_cons, ih]

lemma dedupFirstAux_skip {r : Row} :
    ∀ (l1 l2 : List Row) (seen : List (PyStr × PyStr)), comboKey r ∈ seen →
      dedupFirstAux seen (l1 ++ r :: l2) = dedupFirstAux seen (l1 ++ l2) := by
  intro l1
  induction l1 with
  | nil =>
    intro l2 seen hmem
    rw [List.nil_append, List.nil_append, dedupFirstAux, if_pos hmem]
  | cons a t ih =>
    intro l2 seen hmem
    rw [List.cons_append, List.cons_append, dedupFirstAux, dedupFirstAux]
    by_cases h : comboKey a ∈ seen
    · rw [if_pos h, if_pos h, ih _ _ hmem]
    · rw [if_neg h, if_neg h, ih _ _ (List.mem_cons_of_mem _ hmem)]

lemma countCat_cons (c : RowResult) (a : PyStr × RowResult)
    (t : List (PyStr × RowResult)) :
    countCat c (a :: t) = (if a.2 = c then 1 else 0) + countCat c t := by
  unfold countCat
  rw [List.filter_cons]
  by_cases h : a.2 = c
  · rw [if_pos (by simp [h]), if_pos h, List.length_cons]
    omega
  · rw [if_neg (by simp [h]), if_neg h]
    omega

lemma totalCount_eq_length (rs : List (PyStr × RowResult)) :
    totalCount rs = rs.length := by
  induction rs with
  | nil => rfl
  | cons a t ih =>
    unfold totalCount at *
    simp only [countCat_cons, List.length_cons]
    rcases a with ⟨k, c⟩
    cases c <;> simp <;> omega

lemma substringStage_eq_spec (n1n n2n : PyStr) :
    substringStage n1n n2n = substringStageSpec n1n n2n := by
  unfold substringStage substringStageSpec
  by_cases h : n1n ≠ [] ∧ n2n ≠ []
  · rw [if_pos h]
    by_cases hl : n1n.length ≤ n2n.length
    · simp only [if_pos hl]
      have hpos : 0 < n2n.length := List.length_pos.mpr h.2
      rw [if_pos hpos]
      have hiff : ((7/10 : ℚ) ≤ (n1n.length : ℚ) / (n2n.length : ℚ)) ↔
          ((7/10 : ℚ) * (n2n.length : ℚ) ≤ (n1n.length : ℚ)) :=
        le_div_iff₀ (by exact_mod_cast hpos)
      by_cases hw : 2 ≤ wordCount n1n
      · by_cases hr : (7/10 : ℚ) * (n2n.length : ℚ) ≤ (n1n.length : ℚ)
        · rw [if_pos ⟨hw, hiff.mpr hr⟩, decide_eq_true hw, decide_eq_true hr]
          simp
        · rw [if_neg (fun hc => hr (hiff.mp hc.2)), decide_eq_false hr]
          simp
      · rw [if_neg (fun hc => hw hc.1), decide_eq_false hw]
        simp
    · simp only [if_neg hl]
      have hpos : 0 < n1n.length := List.length_pos.mpr h.1
      rw [if_pos hpos]
      have hiff : ((7/10 : ℚ) ≤ (n2n.length : ℚ) / (n1n.length : ℚ)) ↔
          ((7/10 : ℚ) * (n1n.length : ℚ) ≤ (n2n.length : ℚ)) :=
        le_div_iff₀ (by exact_mod_cast hpos)
      by_cases hw : 2 ≤ wordCount n2n
      · by_cases hr : (7/10 : ℚ) * (n1n.length : ℚ) ≤ (n2n.length : ℚ)
        · rw [if_pos ⟨hw, hiff.mpr hr⟩, decide_eq_true hw, decide_eq_true hr]
          simp
        · rw [if_neg (fun hc => hr (hiff.mp hc.2)), decide_eq_false hr]
          simp
      · rw [if_neg (fun hc => hw hc.1), decide_eq_false hw]
        simp
  · rw [if_neg h]
    rcases not_and_or.mp h with h1 | h2
    · have h1 : n1n = [] := not_not.mp h1
      subst h1
      rw [if_pos (by simp)]
      rfl
    · have h2 : n2n = [] := not_not.mp h2
      subst h2
      by_cases hl : n1n.length ≤ ([] : PyStr).length
      · have : n1n = [] := by
          have := List.length_eq_zero.mp (Nat.le_zero.mp (by simpa using hl))
          exact this
        subst this
        rw [if_pos (by simp)]
        rfl
      · rw [if_neg hl]
        rfl

lemma foldl_eq_stripSuffixPassSpec :
    ∀ (L : List PyStr) (n : PyStr), L.foldl stripOneSuffix n = stripSuffixPassSpec L n := by
  intro L
  induction L with
  | nil => intro n; rfl
  | cons s rest ih =>
    intro n
    rw [List.foldl_cons, stripSuffixPassSpec]
    exact ih _

lemma foldl_eq_stripPrePassSpec :
    ∀ (L : List PyStr) (n : PyStr), L.foldl stripOnePre n = stripPrePassSpec L n := by
  intro L
  induction L with
  | nil => intro n; rfl
  | cons p rest ih =>
    intro n
    rw [List.foldl_cons, stripPrePassSpec]
    exact ih _

lemma is_valid_of_stripped {u : PyStr} (hstrip : pyStrip u = u) (hupper : pyUpper u = u)
    (hne : u ≠ []) (htm : u ≠ ("TM".toList)) : is_valid_tm_number (some u) = true := by
  simp only [is_valid_tm_number, hstrip, hupper]
  rw [if_neg]
  rintro (h | h)
  exacts [hne h, htm h]

lemma pyUpper_append (a b : PyStr) : pyUpper (a ++ b) = pyUpper a ++ pyUpper b :=
  List.map_append Char.toUpper a b

lemma normalize_job_key_eq_spec (v : Option PyStr) :
    normalize_job_key v = jobKeySpecC5 v := by
  cases v with
  | none => rfl
  | some s =>
    simp only [normalize_job_key, jobKeySpecC5, extract_tm_number]
    by_cases h0 : pyStrip s = [] ∨ pyLower (pyStrip s) = ("nan".toList)
    · rw [if_pos h0]
      rcases h0 with h | h
      · rw [if_pos h]
        rfl
      · by_cases he : pyStrip s = []
        · rw [if_pos he]
          rfl
        · rw [if_neg he, if_pos h]
          rfl
    · rw [if_neg h0]
      push_neg at h0
      obtain ⟨hne, hnan⟩ := h0
      rw [if_neg hne, if_neg hnan]
      have hstr : pyStrip (pyStrip s) = pyStrip s := pyStrip_idem s
      have hu_strip : pyStrip (pyUpper (pyStrip s)) = pyUpper (pyStrip s) := by
        rw [pyStrip_pyUpper, hstr]
      have hu_ne : pyUpper (pyStrip s) ≠ [] := by
        intro hc
        exact hne (List.map_eq_nil_iff.mp hc)
      have hu_upper : pyUpper (pyUpper (pyStrip s)) = pyUpper (pyStrip s) :=
        pyUpper_idem _
      by_cases hpre : ("TM".toList).isPrefixOf (pyUpper (pyStrip s)) = true
      · rw [if_pos hpre]
        by_cases htm : pyUpper (pyStrip s) = ("TM".toList)
        · rw [htm, if_pos rfl]
          rfl
        · rw [is_valid_of_stripped hu_strip hu_upper hu_ne htm, if_pos rfl,
            if_neg htm]
      · rw [if_neg hpre]
        have htm2 : pyUpper (pyStrip s) ≠ ("TM".toList) := by
          intro hc
          rw [hc] at hpre
          exact hpre (by decide)
        have happ_strip : pyStrip (("TM".toList) ++ pyUpper (pyStrip s)) =
            ("TM".toList) ++ pyUpper (pyStrip s) :=
          pyStrip_TM_append hu_strip hu_ne
        have happ_upper : pyUpper (("TM".toList) ++ pyUpper (pyStrip s)) =
            ("TM".toList) ++ pyUpper (pyStrip s) := by
          rw [pyUpper_append, hu_upper]
          rfl
        have happ_ne : ("TM".toList) ++ pyUpper (pyStrip s) ≠ [] := by
          simp
        have happ_tm : ("TM".toList) ++ pyUpper (pyStrip s) ≠ ("TM".toList) := by
          intro hc
          have : pyUpper (pyStrip s) = ([] : PyStr) := by
            have h2 : ("TM".toList) ++ pyUpper (pyStrip s) = ("TM".toList) ++ [] := by
              rw [hc, List.append_nil]
            exact (List.append_right_inj ("TM".toList)).mp h2
          exact hu_ne this
        rw [is_valid_of_stripped happ_strip happ_upper happ_ne happ_tm, if_pos rfl,
          if_neg htm2]


lemma dedupFirstAux_dup {r1 r2 : Row} (h : comboKey r1 = comboKey r2) :
    ∀ (l1 : List Row) (l2 l3 : List Row) (seen : List (PyStr × PyStr)),
      dedupFirstAux seen (l1 ++ r1 :: (l2 ++ r2 :: l3))
        = dedupFirstAux seen (l1 ++ r1 :: (l2 ++ l3)) := by
  intro l1
  induction l1 with
  | nil =>
    intro l2 l3 seen
    rw [List.nil_append, List.nil_append, dedupFirstAux, dedupFirstAux]
    by_cases hm : comboKey r1 ∈ seen
    · rw [if_pos hm, if_pos hm]
      exact dedupFirstAux_skip l2 l3 seen (h ▸ hm)
    · rw [if_neg hm, if_neg hm]
      have : comboKey r2 ∈ comboKey r1 :: seen := h ▸ List.mem_cons_self _ _
      rw [dedupFirstAux_skip l2 l3 _ this]
  | cons a t ih =>
    intro l2 l3 seen
    rw [List.cons_append, List.cons_append, dedupFirstAux, dedupFirstAux]
    by_cases hm : comboKey a ∈ seen
    · rw [if_pos hm, if_pos hm, ih l2 l3 seen]
    · rw [if_neg hm, if_neg hm, ih l2 l3 _]


/-! Claim theorems. -/

/-- C1: in the two-source Primary→Secondary ("Tracker vs TM") mode, a
tracker row with no TM candidate sharing its job key is classified
`missing_in_tm`; otherwise the candidates are scanned in their original
order and the first whose contractor name matches per the Name Matcher is
selected; the name match is resolved first and only then is the selected
candidate's cost checked (zero cost means `no_quote_in_tm`, nonzero cost
means `matched`); if no candidate's name matches the row is classified
`tp_mismatch_tm`.  Stated as: the source classification coincides with the
spec-worded classification `trackerVsTMSpec`, for every score assignment,
secondary table and row. -/
theorem c1_tracker_vs_tm_first_match_then_cost (S : Scores) (tm : List Row) (r : Row) :
    classifyTrackerVsTM S tm r = trackerVsTMSpec S tm r := by
  simp only [classifyTrackerVsTM, trackerVsTMSpec]
  rw [find?_eq_firstNameMatch]
  by_cases he : tm.filter (fun x => decide (x.tmNo = r.tmNo)) = []
  · rw [if_pos he, if_pos he]
  · rw [if_neg he, if_neg he]
    cases firstNameMatch S r.tpName (tm.filter (fun x => decide (x.tmNo = r.tmNo))) <;> rfl

/-- C2: the Name Matcher is the short-circuiting cascade of the claim, in
the fixed order blank-check, folded exact equality, non-empty normalized
equality, guarded normalized substring, token-set score at 90, partial
score at 95, plain score at the default threshold.  Stated as: the source
`fuzzy_match` coincides with the spec-worded cascade `nameMatcherSpec`,
for every score assignment, threshold, and pair of (possibly missing)
names. -/
theorem c2_name_matcher_cascade (S : Scores) (threshold : ℚ)
    (name1 name2 : Option PyStr) :
    fuzzy_match S threshold name1 name2 = nameMatcherSpec S threshold name1 name2 := by
  cases name1 with
  | none => cases name2 <;> rfl
  | some s1 =>
    cases name2 with
    | none => rfl
    | some s2 => simp only [fuzzy_match, nameMatcherSpec, substringStage_eq_spec]

/-- C3 counterexample: a run in `Tracker vs TM` mode over two tracker rows
that share the job key `TM1` produces two classifications for the same
(job key, mode) pair, refuting the claim that exactly one classification
is produced per (job key, mode). -/
theorem c3_counterexample :
    runTrackerVsTM S0 []
        [⟨"TM1".toList, some ("a".toList), 0⟩, ⟨"TM1".toList, some ("a".toList), 0⟩] []
      = [("TM1".toList, .missing_in_tm), ("TM1".toList, .missing_in_tm)]
    ∧ (List.filter (fun e => decide (e.1 = ("TM1".toList)))
        (runTrackerVsTM S0 []
          [⟨"TM1".toList, some ("a".toList), 0⟩, ⟨"TM1".toList, some ("a".toList), 0⟩]
          [])).length = 2 := by
  exact ⟨by decide, by decide⟩

/-- C3 (amended): in each of the three modes, every processed row is placed
in exactly one classification category, so the seven category counts of the
summary sum to the number of rows processed: the exclusion-filtered tracker
rows in `Tracker vs TM` and `3-way Full` mode, and the first-occurrence
(job key, case-folded name) representatives of the exclusion-filtered TM
rows in `TM vs Xero` mode (rows sharing a job key each produce their own
classification). -/
theorem c3_partition_amended (S : Scores) (excluded : List PyStr)
    (tracker tm xero : List Row) :
    totalCount (runTrackerVsTM S excluded tracker tm)
        = (tracker.filter (keepRow excluded)).length
    ∧ totalCount (runTMvsXero S excluded tm xero)
        = (dedupFirstAux [] (tm.filter (keepRow excluded))).length
    ∧ totalCount (runThreeWay S excluded tracker tm xero)
        = (tracker.filter (keepRow excluded)).length := by
  refine ⟨?_, ?_, ?_⟩
  · rw [runTrackerVsTM, totalCount_eq_length, List.length_map]
  · rw [runTMvsXero, runTMvsXeroAux_eq_map, totalCount_eq_length, List.length_map]
  · rw [runThreeWay, totalCount_eq_length, List.length_map]

/-- C4: the Cost Comparator never matches a missing input; both-zero
matches; exactly-one-zero never matches; otherwise it matches exactly when
the relative difference `|a-b| / max(a,b)` is within the tolerance; and the
four cited concrete examples (with default tolerance 0.01, and 100.5
written as 201/2). -/
theorem c4_cost_comparator (tol : ℚ) :
    (∀ b : Option ℚ, cost_matches none b tol = false)
    ∧ (∀ a : Option ℚ, cost_matches a none tol = false)
    ∧ cost_matches (some 0) (some 0) tol = true
    ∧ (∀ a : ℚ, a ≠ 0 →
        cost_matches (some 0) (some a) tol = false ∧
        cost_matches (some a) (some 0) tol = false)
    ∧ (∀ a b : ℚ, a ≠ 0 → b ≠ 0 →
        (cost_matches (some a) (some b) tol = true ↔ |a - b| / max a b ≤ tol))
    ∧ cost_matches (some 0) (some 5) (1/100) = false
    ∧ cost_matches (some 5) (some 0) (1/100) = false
    ∧ cost_matches (some 100) (some (201/2)) (1/100) = true
    ∧ cost_matches (some 100) (some 102) (1/100) = false := by
  refine ⟨fun b => by cases b <;> rfl, fun a => by cases a <;> rfl, by norm_num [cost_matches],
    fun a ha => ⟨by simp [cost_matches, ha], by simp [cost_matches, ha]⟩,
    fun a b ha hb => by simp [cost_matches, ha, hb], ?_, ?_, ?_, ?_⟩
  · norm_num [cost_matches]
  · norm_num [cost_matches]
  · simp only [cost_matches]
    rw [if_neg (by norm_num), if_neg (by norm_num)]
    rw [show |(100 : ℚ) - 201/2| = 1/2 by rw [abs_of_nonpos (by norm_num)]; norm_num]
    rw [max_eq_right (by norm_num : (100:ℚ) ≤ 201/2)]
    rw [decide_eq_true (by norm_num : (1/2 : ℚ) / (201/2) ≤ 1/100)]
  · simp only [cost_matches]
    rw [if_neg (by norm_num), if_neg (by norm_num)]
    rw [show |(100 : ℚ) - 102| = 2 by rw [abs_of_nonpos (by norm_num)]; norm_num]
    rw [max_eq_right (by norm_num : (100:ℚ) ≤ 102)]
    rw [decide_eq_false (by norm_num : ¬((2 : ℚ) / 102 ≤ 1/100))]

/-- C4 witness: the theorem applied at tolerance 0.01 with the one-zero
case at 5 and the relative-difference characterization at (100, 102). -/
theorem c4_cost_comparator_witness :
    cost_matches (some 5) (some 0) (1/100) = false
    ∧ (cost_matches (some 100) (some 102) (1/100) = true ↔
        |(100 : ℚ) - 102| / max 100 102 ≤ 1/100) :=
  ⟨((c4_cost_comparator (1/100)).2.2.2.1 5 (by norm_num)).2,
   (c4_cost_comparator (1/100)).2.2.2.2.1 100 102 (by norm_num) (by norm_num)⟩

/-- C10: two strictly negative costs always compare as matching, for any
non-negative tolerance, because the relative-difference quotient has a
negative denominator and non-negative numerator, hence is non-positive. -/
theorem c10_negative_costs_always_match (a b tol : ℚ) (ha : a < 0) (hb : b < 0)
    (ht : 0 ≤ tol) : cost_matches (some a) (some b) tol = true := by
  have ha0 : a ≠ 0 := ne_of_lt ha
  have hb0 : b ≠ 0 := ne_of_lt hb
  simp only [cost_matches]
  rw [if_neg (fun hc => ha0 hc.1)]
  rw [if_neg (by rintro (hc | hc); exacts [ha0 hc, hb0 hc])]
  have hmax : max a b < 0 := max_lt ha hb
  have hquot : |a - b| / max a b ≤ 0 :=
    div_nonpos_of_nonneg_of_nonpos (abs_nonneg _) (le_of_lt hmax)
  exact decide_eq_true (hquot.trans ht)

/-- C10 witness: the theorem applied at (-1, -1000) with the default
tolerance 0.01. -/
theorem c10_witness : cost_matches (some (-1)) (some (-1000)) (1/100) = true :=
  c10_negative_costs_always_match (-1) (-1000) (1/100) (by norm_num) (by norm_num)
    (by norm_num)

/-- C5 counterexample: on the raw value `nan` the claim's normalization
(trim, upper-case, invalid only for empty or bare `TM`, else ensure the
`TM` prefix) yields the valid key `TMNAN`, but the source treats the
literal string `nan` (a pandas missing-value artifact) as invalid. -/
theorem c5_counterexample :
    normalize_job_key (some ("nan".toList)) = none
    ∧ jobKeyClaimC5 (some ("nan".toList)) = some ("TMNAN".toList)
    ∧ normalize_job_key (some ("nan".toList)) ≠ jobKeyClaimC5 (some ("nan".toList)) := by
  exact ⟨by decide, by decide, by decide⟩

/-- C5 (amended): job-key normalization trims the raw value; if the result
is empty or case-insensitively equals the literal string `nan` the key is
invalid; otherwise it upper-cases; a result equal to the bare tag `TM` is
invalid; a result already starting with `TM` is returned as-is, and `TM`
is prepended otherwise.  In particular `42` normalizes to `TM42`, `tm42`
to `TM42`, and the empty string and `TM` are invalid. -/
theorem c5_job_key_amended (v : Option PyStr) :
    normalize_job_key v = jobKeySpecC5 v
    ∧ normalize_job_key (some ("42".toList)) = some ("TM42".toList)
    ∧ normalize_job_key (some ("tm42".toList)) = some ("TM42".toList)
    ∧ normalize_job_key (some ("".toList)) = none
    ∧ normalize_job_key (some ("TM".toList)) = none :=
  ⟨normalize_job_key_eq_spec v, by decide, by decide, by decide, by decide⟩

/-- C6 counterexample: with exclusion set `{bravo}`, the TM-side row for
contractor `bravo` is not removed from the join: it is selected as the
match candidate for the (non-excluded) tracker contractor `bravo ltd` and
turns the classification into `matched`; deleting that TM row instead
yields `missing_in_tm`.  The excluded contractor's record therefore does
participate in a classification, refuting removal from both join sides. -/
theorem c6_counterexample :
    runTrackerVsTM S0 [("bravo".toList)]
        [⟨"TM1".toList, some ("bravo ltd".toList), 0⟩]
        [⟨"TM1".toList, some ("bravo".toList), 5⟩]
      = [("TM1".toList, .matched)]
    ∧ runTrackerVsTM S0 [("bravo".toList)]
        [⟨"TM1".toList, some ("bravo ltd".toList), 0⟩] []
      = [("TM1".toList, .missing_in_tm)] := by
  exact ⟨by decide, by decide⟩

/-- C6 (amended): the exclusion set removes records only from the driving
side of each mode — the tracker rows in `Tracker vs TM` and `3-way Full`
mode and the TM rows in `TM vs Xero` mode — before any classification is
attempted; a driving-side record whose contractor name is in the exclusion
set produces zero classifications (deleting it does not change the run),
while candidate-side tables are not exclusion-filtered. -/
theorem c6_exclusion_amended (S : Scores) (excluded : List PyStr)
    (pre post tm xero : List Row) (r : Row) (s : PyStr)
    (h1 : r.tpName = some s) (h2 : s ∈ excluded) :
    runTrackerVsTM S excluded (pre ++ r :: post) tm
        = runTrackerVsTM S excluded (pre ++ post) tm
    ∧ runTMvsXero S excluded (pre ++ r :: post) xero
        = runTMvsXero S excluded (pre ++ post) xero
    ∧ runThreeWay S excluded (pre ++ r :: post) tm xero
        = runThreeWay S excluded (pre ++ post) tm xero := by
  have hk : keepRow excluded r = false := by
    unfold keepRow
    rw [h1]
    simpa using h2
  have hfil : (pre ++ r :: post).filter (keepRow excluded)
      = (pre ++ post).filter (keepRow excluded) := by
    rw [List.filter_append, List.filter_append, List.filter_cons, hk]
    simp
  exact ⟨by rw [runTrackerVsTM, runTrackerVsTM, hfil],
    by rw [runTMvsXero, runTMvsXero, hfil],
    by rw [runThreeWay, runThreeWay, hfil]⟩

/-- C6 witness: the amended theorem applied to a one-row tracker whose
contractor name `x` is excluded, in all three modes. -/
theorem c6_witness :
    runTrackerVsTM S0 [("x".toList)]
        ([] ++ ⟨"TM1".toList, some ("x".toList), 0⟩ :: []) []
      = runTrackerVsTM S0 [("x".toList)] ([] ++ []) [] :=
  (c6_exclusion_amended S0 [("x".toList)] [] [] [] []
    ⟨"TM1".toList, some ("x".toList), 0⟩ ("x".toList) rfl (by decide)).1

/-- C7 counterexample: name normalization is not idempotent.  On
`acme uk group` the single pass strips only ` group` (because ` uk` is
checked earlier in the alias order, when the name still ends in ` group`),
yielding `acme uk`; a second application strips ` uk` as well, yielding
`acme`. -/
theorem c7_counterexample :
    normalize_tp_name (some ("acme uk group".toList)) = ("acme uk".toList)
    ∧ normalize_tp_name (some (normalize_tp_name (some ("acme uk group".toList))))
        = ("acme".toList)
    ∧ normalize_tp_name (some (normalize_tp_name (some ("acme uk group".toList))))
        ≠ normalize_tp_name (some ("acme uk group".toList)) := by
  exact ⟨by decide, by decide, by decide⟩

/-- C7 (amended): name normalization is idempotent on every input whose
normalized form no longer ends with any declared suffix alias and no
longer starts with any declared prefix alias; in general a second
application can strip aliases that the first pass's fixed checking order
skipped. -/
theorem c7_idempotent_amended (x : Option PyStr)
    (hs : ∀ s ∈ tp_suffixes, s.isSuffixOf (normalize_tp_name x) = false)
    (hp : ∀ p ∈ tp_prefixes, p.isPrefixOf (normalize_tp_name x) = false) :
    normalize_tp_name (some (normalize_tp_name x)) = normalize_tp_name x := by
  have h1 : pyLower (normalize_tp_name x) = normalize_tp_name x :=
    pyLower_eq_self (isLowerInv_normalize x)
  have h2 : pyStrip (normalize_tp_name x) = normalize_tp_name x :=
    pyStrip_normalize x
  show pyStrip (tp_prefixes.foldl stripOnePre (tp_suffixes.foldl stripOneSuffix
    (pyStrip (pyLower (normalize_tp_name x))))) = normalize_tp_name x
  rw [h1, h2, foldl_stripOneSuffix_eq_self hs, foldl_stripOnePre_eq_self hp, h2]

/-- C7 witness: the amended theorem applied to `Acme Tree Services Ltd`,
whose normalized form `acme` has no remaining alias match. -/
theorem c7_witness :
    normalize_tp_name (some (normalize_tp_name (some ("Acme Tree Services Ltd".toList))))
      = normalize_tp_name (some ("Acme Tree Services Ltd".toList)) :=
  c7_idempotent_amended (some ("Acme Tree Services Ltd".toList)) (by decide) (by decide)

/-- C8 counterexample: a single normalization pass can strip more than one
suffix.  On `acme group uk` the first matching alias in declared order is
` uk`, whose removal exposes ` group`, which is checked later in the same
pass and removed as well: the source yields `acme`, while the claim's
at-most-one-suffix normalization yields `acme group`. -/
theorem c8_counterexample :
    normalize_tp_name (some ("acme group uk".toList)) = ("acme".toList)
    ∧ normalizeClaimC8 (some ("acme group uk".toList)) = ("acme group".toList)
    ∧ normalize_tp_name (some ("acme group uk".toList))
        ≠ normalizeClaimC8 (some ("acme group uk".toList)) := by
  exact ⟨by decide, by decide, by decide⟩

/-- C8 (amended): the suffix pass checks every suffix alias exactly once,
in the declared order, removing a single trailing occurrence of an alias
when the name current at that point ends with it (so several different
aliases can each be stripped once in one pass); the prefix pass then does
the same with the prefix aliases. -/
theorem c8_strip_per_alias_amended (s : PyStr) :
    normalize_tp_name (some s)
      = pyStrip (stripPrePassSpec tp_prefixes
          (stripSuffixPassSpec tp_suffixes (pyStrip (pyLower s)))) := by
  show pyStrip (tp_prefixes.foldl stripOnePre (tp_suffixes.foldl stripOneSuffix
    (pyStrip (pyLower s)))) = _
  rw [foldl_eq_stripSuffixPassSpec, foldl_eq_stripPrePassSpec]

/-- C9 counterexample: the `TM vs Xero` deduplication key folds only case
and surrounding whitespace, not the full contractor-name normalization.
`acme ltd` and `acme limited` have the same normalized contractor name and
the same job key, yet both rows are classified (two output records),
refuting deduplication by (job key, normalized contractor name). -/
theorem c9_counterexample :
    normalize_tp_name (some ("acme ltd".toList))
        = normalize_tp_name (some ("acme limited".toList))
    ∧ runTMvsXero S0 []
        [⟨"TM1".toList, some ("acme ltd".toList), 5⟩,
         ⟨"TM1".toList, some ("acme limited".toList), 5⟩] []
      = [("TM1".toList, .missing_in_xero), ("TM1".toList, .missing_in_xero)] := by
  exact ⟨by decide, by decide⟩

/-- C9 (amended): the `TM vs Xero` iteration deduplicates on the pair
(job key, lower-cased and trimmed contractor name): of two TM rows that
agree on that pair, only the first in table order produces a
classification — dropping the later duplicate does not change the run. -/
theorem c9_dedup_amended (S : Scores) (xero : List Row)
    (l1 l2 l3 : List Row) (r1 r2 : Row) (h : comboKey r1 = comboKey r2) :
    runTMvsXeroAux S xero [] (l1 ++ r1 :: (l2 ++ r2 :: l3))
      = runTMvsXeroAux S xero [] (l1 ++ r1 :: (l2 ++ l3)) := by
  rw [runTMvsXeroAux_eq_map, runTMvsXeroAux_eq_map, dedupFirstAux_dup h]

/-- C9 witness: the amended theorem applied to two identical rows. -/
theorem c9_witness :
    runTMvsXeroAux S0 [] []
        ([] ++ ⟨"TM1".toList, some ("a".toList), 5⟩ ::
          ([] ++ ⟨"TM1".toList, some ("a".toList), 5⟩ :: []))
      = runTMvsXeroAux S0 [] []
        ([] ++ ⟨"TM1".toList, some ("a".toList), 5⟩ :: ([] ++ [])) :=
  c9_dedup_amended S0 [] [] [] [] _ _ rfl
